import Mathlib

/-! Shallow embedding of the moneyguru undo engine (core/model/undo.py):
the `Action` and `Undoer` classes, together with a spec-modelled `UndoStep`
(the C extension `core.model._ccore` ships no Python source). Python object
identity is modelled by natural-number references; the mutable content of an
object lives in a heap indexed by its reference. Python sets are modelled by
duplicate-free lists enumerated in insertion order, which fixes one concrete
(implementation-defined in CPython) iteration order. -/

namespace MGUndo

/-- An object reference: Python object identity as a natural number id. -/
abbrev Ref := Nat

/-- A heap giving every object reference its current mutable content,
abstracted to one natural number per object. -/
abbrev Heap := Ref → Nat

/-- Pointwise heap update. -/
def heapSet (h : Heap) (r : Ref) (v : Nat) : Heap :=
  fun x => if x = r then v else h x

/-- Python `set.add`, on a list enumerating the set in insertion order. -/
def setAdd (s : List Ref) (x : Ref) : List Ref :=
  if x ∈ s then s else s ++ [x]

/-- Python `set |= set(xs)`: fold of `setAdd`. -/
def setUnion (s : List Ref) (xs : List Ref) : List Ref :=
  xs.foldl setAdd s

/-- A recurring schedule as seen by `Action.change_transactions`: its own
reference plus the references of the spawns it has materialized. -/
structure Schedule where
  sid : Ref
  spawns : List Ref
deriving DecidableEq

/-- Modelled from the spec: the predicate "does this schedule's spawn set
contain transaction T" (`Schedule.contains_spawn` lives outside the shown
sources; §6 of the spec describes it as spawn-set membership). -/
def Schedule.contains_spawn (s : Schedule) (t : Ref) : Bool :=
  t ∈ s.spawns

/-- An entry (a transaction line item): its own reference and the reference
of the transaction that owns it. -/
structure Entry where
  eid : Ref
  transaction : Ref
deriving DecidableEq

/-- The `Action` class of undo.py: a unique object identity `aid`, a
description, and the nine added/changed/deleted sets. In the source the
`changed` sets hold the entity objects themselves (`change_accounts` performs
`self.changed_accounts |= set(accounts)`), so every field is a set of
references. -/
structure Action where
  aid : Ref
  description : String
  added_accounts : List Ref := []
  changed_accounts : List Ref := []
  deleted_accounts : List Ref := []
  added_transactions : List Ref := []
  changed_transactions : List Ref := []
  deleted_transactions : List Ref := []
  added_schedules : List Ref := []
  changed_schedules : List Ref := []
  deleted_schedules : List Ref := []
deriving DecidableEq

/-- `Action.__init__(description)`: all nine sets start empty. -/
def Action.new (aid : Ref) (description : String) : Action :=
  { aid := aid, description := description }

/-- `Action.change_accounts`: `self.changed_accounts |= set(accounts)`. -/
def Action.change_accounts (a : Action) (accounts : List Ref) : Action :=
  { a with changed_accounts := setUnion a.changed_accounts accounts }

/-- `Action.change_schedule`: `self.changed_schedules.add(schedule)`. -/
def Action.change_schedule (a : Action) (schedule : Ref) : Action :=
  { a with changed_schedules := setAdd a.changed_schedules schedule }

/-- Modelled from the spec: `core.util.extract(predicate, iterable)` (not in
the shown sources) partitions the input into the elements satisfying the
predicate and the rest. -/
def extract (p : Ref → Bool) (xs : List Ref) : List Ref × List Ref :=
  (xs.filter p, xs.filter (fun x => !p x))

/-- `Action.change_transactions(transactions, schedules)`: split the input
with `extract(lambda t: t.is_spawn, transactions)`; add each normal
transaction to `changed_transactions`; for each spawn, call `change_schedule`
on every schedule whose spawn set contains it. The `is_spawn` attribute of
transaction objects is passed as a predicate on references. -/
def Action.change_transactions (a : Action) (is_spawn : Ref → Bool)
    (transactions : List Ref) (schedules : List Schedule) : Action :=
  let parts := extract is_spawn transactions
  let a1 := parts.2.foldl
    (fun acc t => { acc with changed_transactions := setAdd acc.changed_transactions t }) a
  parts.1.foldl
    (fun acc sp => schedules.foldl
      (fun acc2 sch => if sch.contains_spawn sp then acc2.change_schedule sch.sid else acc2)
      acc)
    a1

/-- `Action.change_entries(entries, schedules)`: build the Python set
comprehension over the owning transactions of the entries (first-occurrence
order, duplicates dropped) and delegate to `change_transactions`. -/
def Action.change_entries (a : Action) (is_spawn : Ref → Bool)
    (entries : List Entry) (schedules : List Schedule) : Action :=
  a.change_transactions is_spawn (setUnion [] (entries.map Entry.transaction)) schedules

/-- The document state the `Undoer` is bound to: the live accounts and
transactions collections (reference sets plus a heap of entity contents), a
heap of schedule contents, the ordered scheduled-transactions list, and a
flag recording that `clear_cache` has been invoked on the transactions
collection. -/
structure DocState where
  accounts : Finset Ref
  accHeap : Heap
  transactions : Finset Ref
  txnHeap : Heap
  schedHeap : Heap
  scheduled : List Ref
  cacheCleared : Bool

/-- Modelled from the spec: an `UndoStep` (built in `core.model._ccore`) is
derived from an Action's sets at record time; the changed sets become
(reference, backup) pairs whose backup is the entity content at record
time. -/
structure UndoStep where
  added_accounts : List Ref
  deleted_accounts : List Ref
  changed_accounts : List (Ref × Nat)
  added_transactions : List Ref
  deleted_transactions : List Ref
  changed_transactions : List (Ref × Nat)
  changed_schedules : List (Ref × Nat)
deriving DecidableEq

/-- Restore every (reference, backup) pair of `changed` into the heap. -/
def restoreAll (h : Heap) (changed : List (Ref × Nat)) : Heap :=
  changed.foldl (fun hh p => heapSet hh p.1 p.2) h

/-- Snapshot the current heap content of every changed reference, producing
the backup slots for the opposite direction. -/
def snapshotAll (h : Heap) (changed : List (Ref × Nat)) : List (Ref × Nat) :=
  changed.map (fun p => (p.1, h p.1))

/-- Remove each listed reference from a live collection. -/
def remAll (s : Finset Ref) (xs : List Ref) : Finset Ref :=
  xs.foldl Finset.erase s

/-- Insert each listed reference into a live collection. -/
def insAll (s : Finset Ref) (xs : List Ref) : Finset Ref :=
  xs.foldl (fun t x => insert x t) s

/-- Modelled from the spec: `UndoStep` construction at `Undoer.record` time,
from the Action's sets and the current heaps (the backups are the entity
contents at the moment of recording). -/
def mkUndoStep (a : Action) (d : DocState) : UndoStep where
  added_accounts := a.added_accounts
  deleted_accounts := a.deleted_accounts
  changed_accounts := a.changed_accounts.map (fun r => (r, d.accHeap r))
  added_transactions := a.added_transactions
  deleted_transactions := a.deleted_transactions
  changed_transactions := a.changed_transactions.map (fun r => (r, d.txnHeap r))
  changed_schedules := a.changed_schedules.map (fun r => (r, d.schedHeap r))

/-- Modelled from the spec: apply-backward. Each changed entity is restored
to its backup while the backup slot captures the pre-undo (live) value, so
that backup and live value together encode both directions; added entities
leave the live collections and deleted entities re-enter them. Returns the
mutated step together with the mutated document state. -/
def UndoStep.undo (st : UndoStep) (d : DocState) : UndoStep × DocState :=
  ({ st with
      changed_accounts := snapshotAll d.accHeap st.changed_accounts,
      changed_transactions := snapshotAll d.txnHeap st.changed_transactions,
      changed_schedules := snapshotAll d.schedHeap st.changed_schedules },
   { d with
      accHeap := restoreAll d.accHeap st.changed_accounts,
      txnHeap := restoreAll d.txnHeap st.changed_transactions,
      schedHeap := restoreAll d.schedHeap st.changed_schedules,
      accounts := insAll (remAll d.accounts st.added_accounts) st.deleted_accounts,
      transactions := insAll (remAll d.transactions st.added_transactions) st.deleted_transactions })

/-- Modelled from the spec: apply-forward. Same backup/live swap for changed
entities; added entities re-enter the live collections and deleted entities
leave them. -/
def UndoStep.redo (st : UndoStep) (d : DocState) : UndoStep × DocState :=
  ({ st with
      changed_accounts := snapshotAll d.accHeap st.changed_accounts,
      changed_transactions := snapshotAll d.txnHeap st.changed_transactions,
      changed_schedules := snapshotAll d.schedHeap st.changed_schedules },
   { d with
      accHeap := restoreAll d.accHeap st.changed_accounts,
      txnHeap := restoreAll d.txnHeap st.changed_transactions,
      schedHeap := restoreAll d.schedHeap st.changed_schedules,
      accounts := insAll (remAll d.accounts st.deleted_accounts) st.added_accounts,
      transactions := insAll (remAll d.transactions st.deleted_transactions) st.added_transactions })

/-- A recorded action: the Python `Action` object after `record` has set its
`undostep` attribute. -/
structure RAction where
  act : Action
  undostep : UndoStep
deriving DecidableEq

/-- Python runtime errors surfaced by the undo engine: a failed `assert`, an
out-of-range list index, and `list.remove` on a missing element. -/
inductive PyErr
  | assertionError
  | indexError
  | valueError
deriving DecidableEq

instance {ε α : Type} [DecidableEq ε] [DecidableEq α] : DecidableEq (Except ε α) := fun x y =>
  match x, y with
  | .error e, .error f =>
    if h : e = f then isTrue (by subst h; rfl) else isFalse (fun hc => h (by cases hc; rfl))
  | .error _, .ok _ => isFalse (fun hc => Except.noConfusion hc)
  | .ok _, .error _ => isFalse (fun hc => Except.noConfusion hc)
  | .ok a, .ok b =>
    if h : a = b then isTrue (by subst h; rfl) else isFalse (fun hc => h (by cases hc; rfl))

/-- The error, if any, of a fallible computation (used to state facts about
raised exceptions without comparing whole result states). -/
def errorOf {α : Type} : Except PyErr α → Option PyErr
  | .error e => some e
  | .ok _ => none

/-- Python index resolution: a negative index counts from the end. -/
def pyIdx (len : Nat) (i : Int) : Int :=
  if i < 0 then (len : Int) + i else i

/-- Python list indexing with negative-index semantics: `l[i]` is
`l[len l + i]` for `i < 0`, and an `IndexError` out of range. -/
def pyGet (l : List RAction) (i : Int) : Option RAction :=
  if 0 ≤ pyIdx l.length i ∧ pyIdx l.length i < (l.length : Int)
  then l[(pyIdx l.length i).toNat]? else none

/-- In-place update of the element at Python index `i` (used to model the
mutation of a recorded action's `undostep` attribute). -/
def pySet (l : List RAction) (i : Int) (x : RAction) : List RAction :=
  l.set (pyIdx l.length i).toNat x

/-- Python `list.remove`: drop the first occurrence, `ValueError` if absent. -/
def pyRemove (l : List Ref) (x : Ref) : Except PyErr (List Ref) :=
  if x ∈ l then .ok (l.erase x) else .error .valueError

/-- `Undoer._do_adds`: append each schedule to the scheduled list. -/
def do_adds (scheduled : List Ref) (schedules : List Ref) : List Ref :=
  schedules.foldl (fun l s => l ++ [s]) scheduled

/-- `Undoer._do_deletes`: `list.remove` each schedule from the scheduled
list, failing with `ValueError` on a missing one. -/
def do_deletes (scheduled : List Ref) (schedules : List Ref) : Except PyErr (List Ref) :=
  schedules.foldlM pyRemove scheduled

/-- The `Undoer` object state: the recorded actions, the cursor (a negative
offset from the end of the list) and the save point (the identity of the
action recorded when the document was last saved, if any). The live
collections it is bound to are threaded separately as a `DocState`. -/
structure Undoer where
  _actions : List RAction
  _index : Int
  _save_point : Option Ref
deriving DecidableEq

/-- `Undoer.__init__`: empty history, cursor `-1`, no save point. -/
def Undoer.init : Undoer := ⟨[], -1, none⟩

/-- `Undoer.can_redo`: `self._index < -1`. -/
def Undoer.can_redo (u : Undoer) : Bool :=
  decide (u._index < -1)

/-- `Undoer.can_undo`: `-self._index <= len(self._actions)`. -/
def Undoer.can_undo (u : Undoer) : Bool :=
  decide (-u._index ≤ (u._actions.length : Int))

/-- `Undoer.clear`: `self._actions = []` and nothing else. -/
def Undoer.clear (u : Undoer) : Undoer :=
  { u with _actions := [] }

/-- `Undoer.undo_description`: description of the cursor action when
`can_undo`, `None` otherwise. -/
def Undoer.undo_description (u : Undoer) : Option String :=
  if u.can_undo then (pyGet u._actions u._index).map (fun r => r.act.description)
  else none

/-- `Undoer.redo_description`: description of the action ahead of the cursor
when `can_redo`, `None` otherwise. -/
def Undoer.redo_description (u : Undoer) : Option String :=
  if u.can_redo then (pyGet u._actions (u._index + 1)).map (fun r => r.act.description)
  else none

/-- `Undoer.set_save_point`: `self._save_point = self._actions[-1] if
self._actions else None`, keeping the identity of the tip action. -/
def Undoer.set_save_point (u : Undoer) : Undoer :=
  { u with _save_point := u._actions.getLast?.map (fun r => r.act.aid) }

/-- `Undoer.record`: build the action's `UndoStep` from the current document
state; when the cursor is rewound (`_index < -1`) truncate the history with
`self._actions[:self._index + 1]`; append the action and reset the cursor. -/
def Undoer.record (u : Undoer) (d : DocState) (a : Action) : Undoer :=
  let r : RAction := ⟨a, mkUndoStep a d⟩
  let actions := if u._index < -1
    then u._actions.take ((u._actions.length : Int) + u._index + 1).toNat
    else u._actions
  { u with _actions := actions ++ [r], _index := -1 }

/-- `Undoer.undo`: assert `can_undo` (raising `AssertionError` otherwise);
fetch the cursor action (Python raising `IndexError` out of range); apply its
undostep backward (which mutates the undostep attribute in place); re-add its
deleted schedules, remove its added schedules; clear the transaction cache;
move the cursor one step into the past. -/
def Undoer.undo (u : Undoer) (d : DocState) : Except PyErr (Undoer × DocState) :=
  if !u.can_undo then .error .assertionError
  else match pyGet u._actions u._index with
    | none => .error .indexError
    | some r =>
      let stepped := r.undostep.undo d
      (do_deletes (do_adds stepped.2.scheduled r.act.deleted_schedules)
          r.act.added_schedules).map
        (fun sched2 =>
          (⟨pySet u._actions u._index ⟨r.act, stepped.1⟩, u._index - 1, u._save_point⟩,
           { stepped.2 with scheduled := sched2, cacheCleared := true }))

/-- `Undoer.redo`: assert `can_redo` (raising `AssertionError` otherwise);
fetch the action ahead of the cursor; apply its undostep forward; re-add its
added schedules, remove its deleted schedules; clear the transaction cache;
move the cursor one step toward the present. -/
def Undoer.redo (u : Undoer) (d : DocState) : Except PyErr (Undoer × DocState) :=
  if !u.can_redo then .error .assertionError
  else match pyGet u._actions (u._index + 1) with
    | none => .error .indexError
    | some r =>
      let stepped := r.undostep.redo d
      (do_deletes (do_adds stepped.2.scheduled r.act.added_schedules)
          r.act.deleted_schedules).map
        (fun sched2 =>
          (⟨pySet u._actions (u._index + 1) ⟨r.act, stepped.1⟩, u._index + 1, u._save_point⟩,
           { stepped.2 with scheduled := sched2, cacheCleared := true }))

/-- `Undoer.modified`: `self._save_point is not self._actions[self._index]`
when `can_undo`, else `self._save_point is not None`. Python identity
comparison becomes comparison of action ids. The `none` match arm is the
branch where Python indexing would raise; it is unreachable while the cursor
invariant `_index ≤ -1` holds together with `can_undo`. -/
def Undoer.modified (u : Undoer) : Bool :=
  if u.can_undo then
    match pyGet u._actions u._index with
    | some r => decide (u._save_point ≠ some r.act.aid)
    | none => true
  else
    decide (u._save_point ≠ none)

/-- The identities of the recorded actions, in history order. -/
def actionIds (l : List RAction) : List Ref := l.map (fun r => r.act.aid)

/-- One public Undoer operation together with the document state it acts
on (the document state never feeds back into the bookkeeping fields). -/
inductive UOp
  | recordOp (d : DocState) (a : Action)
  | undoOp (d : DocState)
  | redoOp (d : DocState)

/-- The Undoer-state evolution of one operation. -/
def applyOp (u : Undoer) : UOp → Except PyErr Undoer
  | .recordOp d a => .ok (u.record d a)
  | .undoOp d => (u.undo d).map Prod.fst
  | .redoOp d => (u.redo d).map Prod.fst

/-- Run a sequence of operations, stopping at the first raised error. -/
def runOps (u : Undoer) : List UOp → Except PyErr Undoer
  | [] => .ok u
  | op :: rest => (applyOp u op).bind (fun u1 => runOps u1 rest)

/-- Modelled from the spec: the registration-time backup discipline that
§4.1 ascribes to `change_accounts` — each account not already registered is
paired with a copy of its current content taken at the moment of
registration; an already-registered account keeps its first backup. Stated
separately so it can be compared with the source's `change_accounts`. -/
def change_accounts_with_backup (changed : List (Ref × Nat)) (h : Heap)
    (accounts : List Ref) : List (Ref × Nat) :=
  accounts.foldl
    (fun s x => if x ∈ s.map Prod.fst then s else s ++ [(x, h x)]) changed

/-- The all-zero heap, for concrete scenarios. -/
def heap0 : Heap := fun _ => 0

/-- An empty document state, for concrete scenarios. -/
def dEmpty : DocState := ⟨∅, heap0, ∅, heap0, heap0, [], false⟩

/-- A document state whose scheduled list holds schedules 0 and 1, with
schedule 0 first. -/
def dPair : DocState := ⟨∅, heap0, ∅, heap0, heap0, [0, 1], false⟩

/-- An action that added schedule 0 (and touched nothing else). -/
def aSched : Action := { Action.new 0 "add schedule" with added_schedules := [0] }

/-- A document state exercising every kind of tracked change: accounts 1
(added) and 3 (changed) live, account 2 deleted; transactions 4 (added) and
6 (changed) live, transaction 5 deleted; schedule 7 (added) scheduled,
schedule 9 deleted, schedule 8 changed. -/
def dW : DocState := ⟨{1, 3}, heap0, {4, 6}, heap0, heap0, [7], false⟩

/-- The action matching `dW`: it added, changed and deleted one entity of
each kind. -/
def aW : Action := { Action.new 0 "full action" with
  added_accounts := [1], changed_accounts := [3], deleted_accounts := [2],
  added_transactions := [4], changed_transactions := [6], deleted_transactions := [5],
  added_schedules := [7], changed_schedules := [8], deleted_schedules := [9] }

/-- A two-action history at the tip: actions 0 then 1 recorded over the
empty document. -/
def uC2 : Undoer :=
  (Undoer.init.record dEmpty (Action.new 0 "a")).record dEmpty (Action.new 1 "b")

/-- `uC2` after one undo (cursor at -2). -/
def uC2mid : Undoer := ⟨uC2._actions, -2, none⟩

/-- `uC2` after two undos (cursor at -3). -/
def uC2low : Undoer := ⟨uC2._actions, -3, none⟩

/-- Fold of `record` over a list of (document state, action) pairs. -/
def recordAll (u : Undoer) (l : List (DocState × Action)) : Undoer :=
  l.foldl (fun v p => v.record p.1 p.2) u

/-! Helper lemmas about the set, heap and collection primitives. -/

theorem mem_setAdd {s : List Ref} {x y : Ref} : y ∈ setAdd s x ↔ y ∈ s ∨ y = x := by
  unfold setAdd
  split
  · rename_i hmem
    constructor
    · exact fun h1 => Or.inl h1
    · intro h1
      rcases h1 with h1 | h1
      · exact h1
      · exact h1 ▸ hmem
  · simp

theorem mem_setUnion {s xs : List Ref} {y : Ref} :
    y ∈ setUnion s xs ↔ y ∈ s ∨ y ∈ xs := by
  induction xs generalizing s with
  | nil => simp [setUnion]
  | cons x tl ih =>
    show y ∈ setUnion (setAdd s x) tl ↔ _
    rw [ih, mem_setAdd]
    simp
    tauto

theorem setAdd_of_mem {s : List Ref} {x : Ref} (h : x ∈ s) : setAdd s x = s := by
  simp [setAdd, h]

theorem setUnion_of_subset {s xs : List Ref} (h : ∀ x ∈ xs, x ∈ s) :
    setUnion s xs = s := by
  induction xs generalizing s with
  | nil => rfl
  | cons x tl ih =>
    show setUnion (setAdd s x) tl = s
    rw [setAdd_of_mem (h x (by simp))]
    exact ih fun y hy => h y (by simp [hy])

theorem heapSet_self (h : Heap) (r : Ref) (v : Nat) : heapSet h r v r = v := by
  simp [heapSet]

theorem heapSet_other (h : Heap) {r x : Ref} (v : Nat) (hx : x ≠ r) :
    heapSet h r v x = h x := by
  simp [heapSet, hx]

theorem restoreAll_not_mem {h : Heap} {ch : List (Ref × Nat)} {r : Ref}
    (hr : r ∉ ch.map Prod.fst) : restoreAll h ch r = h r := by
  induction ch generalizing h with
  | nil => rfl
  | cons p tl ih =>
    simp only [List.map_cons, List.mem_cons] at hr
    push_neg at hr
    show restoreAll (heapSet h p.1 p.2) tl r = h r
    rw [ih hr.2, heapSet_other _ _ hr.1]

theorem restoreAll_mem {h : Heap} {ch : List (Ref × Nat)} {r : Ref} {v : Nat}
    (hnd : (ch.map Prod.fst).Nodup) (hrv : (r, v) ∈ ch) : restoreAll h ch r = v := by
  induction ch generalizing h with
  | nil => cases hrv
  | cons p tl ih =>
    simp only [List.map_cons, List.nodup_cons] at hnd
    rcases List.mem_cons.1 hrv with heq | htl
    · have : r = p.1 ∧ v = p.2 := by
        constructor <;> simp [← heq]
      show restoreAll (heapSet h p.1 p.2) tl r = v
      have hr : r ∉ tl.map Prod.fst := this.1 ▸ hnd.1
      rw [restoreAll_not_mem hr, this.1, this.2, heapSet_self]
    · exact ih hnd.2 htl

theorem fst_snapshotAll (h : Heap) (ch : List (Ref × Nat)) :
    (snapshotAll h ch).map Prod.fst = ch.map Prod.fst := by
  simp [snapshotAll, Function.comp]

theorem restore_snapshot {h : Heap} {ch : List (Ref × Nat)}
    (hnd : (ch.map Prod.fst).Nodup) :
    restoreAll (restoreAll h ch) (snapshotAll h ch) = h := by
  funext x
  by_cases hx : x ∈ ch.map Prod.fst
  · rcases List.mem_map.1 hx with ⟨p, hp, hpx⟩
    have hmem : (x, h x) ∈ snapshotAll h ch := by
      have := List.mem_map_of_mem (fun q => (q.1, h q.1)) hp
      simpa [snapshotAll, hpx] using this
    have hnd2 : ((snapshotAll h ch).map Prod.fst).Nodup := by
      rw [fst_snapshotAll]; exact hnd
    exact restoreAll_mem hnd2 hmem
  · have h1 : restoreAll (restoreAll h ch) (snapshotAll h ch) x = restoreAll h ch x := by
      refine restoreAll_not_mem ?_
      rw [fst_snapshotAll]; exact hx
    rw [h1, restoreAll_not_mem hx]

theorem snapshot_restore {h : Heap} {ch : List (Ref × Nat)}
    (hnd : (ch.map Prod.fst).Nodup) :
    snapshotAll (restoreAll h ch) (snapshotAll h ch) = ch := by
  unfold snapshotAll
  rw [List.map_map]
  have : ∀ p ∈ ch, ((fun p : Ref × Nat => (p.1, restoreAll h ch p.1)) ∘
      fun p : Ref × Nat => (p.1, h p.1)) p = p := by
    intro p hp
    have : restoreAll h ch p.1 = p.2 := restoreAll_mem hnd hp
    simp [this]
  rw [List.map_congr_left this]
  simp

theorem mem_remAll {s : Finset Ref} {xs : List Ref} {x : Ref} :
    x ∈ remAll s xs ↔ x ∈ s ∧ x ∉ xs := by
  induction xs generalizing s with
  | nil => simp [remAll]
  | cons y tl ih =>
    show x ∈ remAll (s.erase y) tl ↔ _
    rw [ih]
    simp only [Finset.mem_erase, List.mem_cons]
    tauto

theorem mem_insAll {s : Finset Ref} {xs : List Ref} {x : Ref} :
    x ∈ insAll s xs ↔ x ∈ s ∨ x ∈ xs := by
  induction xs generalizing s with
  | nil => simp [insAll]
  | cons y tl ih =>
    show x ∈ insAll (insert y s) tl ↔ _
    rw [ih]
    simp only [Finset.mem_insert, List.mem_cons]
    tauto

/-! Python list indexing, mutation, and schedule add/remove lemmas. -/

theorem set_getElem?_self {α : Type} {l : List α} {n : Nat} {a : α}
    (h : l[n]? = some a) : l.set n a = l := by
  induction l generalizing n with
  | nil => simp at h
  | cons b tl ih =>
    cases n with
    | zero =>
      simp only [List.getElem?_cons_zero, Option.some.injEq] at h
      simp [h]
    | succ m =>
      simp only [List.getElem?_cons_succ] at h
      simp [ih h]

theorem pyGet_eq_getElem {l : List RAction} {i : Int} (hi : i < 0)
    (h0 : 0 ≤ (l.length : Int) + i) :
    pyGet l i = l[((l.length : Int) + i).toNat]? := by
  have hj : pyIdx l.length i = (l.length : Int) + i := by simp [pyIdx, hi]
  unfold pyGet
  rw [hj, if_pos ⟨h0, by omega⟩]

theorem pyGet_total {l : List RAction} {i : Int} (hi : i ≤ -1)
    (hlen : -i ≤ (l.length : Int)) : ∃ r, pyGet l i = some r := by
  rw [pyGet_eq_getElem (by omega) (by omega)]
  have hlt : ((l.length : Int) + i).toNat < l.length := by omega
  exact ⟨_, List.getElem?_eq_getElem hlt⟩

theorem pyGet_inv {l : List RAction} {i : Int} {r : RAction}
    (h : pyGet l i = some r) :
    l[(pyIdx l.length i).toNat]? = some r ∧ (pyIdx l.length i).toNat < l.length := by
  unfold pyGet at h
  split at h
  · rename_i hc
    exact ⟨h, by omega⟩
  · cases h

theorem pyGet_mem {l : List RAction} {i : Int} {r : RAction}
    (h : pyGet l i = some r) : r ∈ l := by
  have := (pyGet_inv h).1
  exact List.getElem?_mem this

theorem pyGet_append_last (l : List RAction) (r : RAction) :
    pyGet (l ++ [r]) (-1) = some r := by
  rw [pyGet_eq_getElem (by omega) (by simp)]
  have hj : (((l ++ [r]).length : Int) + -1).toNat = l.length := by
    simp
  rw [hj]
  simp

theorem length_pySet (l : List RAction) (i : Int) (x : RAction) :
    (pySet l i x).length = l.length := by
  simp [pySet]

theorem pySet_of_pyGet {l : List RAction} {i : Int} {r : RAction}
    (h : pyGet l i = some r) : pySet l i r = l :=
  set_getElem?_self (pyGet_inv h).1

theorem pyIdx_pySet (l : List RAction) (i : Int) (x : RAction) :
    pyIdx (pySet l i x).length i = pyIdx l.length i := by
  rw [length_pySet]

theorem pyGet_pySet {l : List RAction} {i : Int} {r x : RAction}
    (h : pyGet l i = some r) : pyGet (pySet l i x) i = some x := by
  obtain ⟨hget, hlt⟩ := pyGet_inv h
  unfold pyGet
  rw [pyIdx_pySet]
  have hc : 0 ≤ pyIdx l.length i ∧ pyIdx l.length i < ((pySet l i x).length : Int) := by
    rw [length_pySet]
    unfold pyGet at h
    split at h
    · rename_i hc0; exact hc0
    · cases h
  rw [if_pos hc]
  unfold pySet
  exact List.getElem?_set_self hlt

theorem actionIds_pySet {l : List RAction} {i : Int} {r : RAction} (st : UndoStep)
    (h : pyGet l i = some r) : actionIds (pySet l i ⟨r.act, st⟩) = actionIds l := by
  unfold actionIds pySet
  rw [List.map_set]
  apply set_getElem?_self
  rw [List.getElem?_map, (pyGet_inv h).1]
  rfl

theorem do_adds_eq (l xs : List Ref) : do_adds l xs = l ++ xs := by
  induction xs generalizing l with
  | nil => simp [do_adds]
  | cons x tl ih =>
    show do_adds (l ++ [x]) tl = _
    rw [ih]
    simp

theorem do_deletes_cons (l : List Ref) (x : Ref) (xs : List Ref) :
    do_deletes l (x :: xs) = (pyRemove l x).bind (fun m => do_deletes m xs) := by
  cases hpr : pyRemove l x <;> simp [do_deletes, List.foldlM, hpr] <;> rfl

theorem do_deletes_ok {l xs m : List Ref} (h : do_deletes l xs = .ok m) :
    m = l.diff xs ∧ (xs : Multiset Ref) ≤ (l : Multiset Ref) := by
  induction xs generalizing l with
  | nil =>
    constructor
    · cases h; rfl
    · simp
  | cons x tl ih =>
    rw [do_deletes_cons] at h
    unfold pyRemove at h
    split at h
    · rename_i hx
      have h2 : do_deletes (l.erase x) tl = .ok m := h
      obtain ⟨hm, hle⟩ := ih h2
      refine ⟨by rw [List.diff_cons]; exact hm, ?_⟩
      calc ((x :: tl : List Ref) : Multiset Ref) = x ::ₘ (tl : Multiset Ref) := by
            rw [Multiset.cons_coe]
        _ ≤ x ::ₘ ((l.erase x : List Ref) : Multiset Ref) := Multiset.cons_le_cons x hle
        _ = x ::ₘ (l : Multiset Ref).erase x := by rw [Multiset.coe_erase]
        _ = (l : Multiset Ref) := Multiset.cons_erase (Multiset.mem_coe.2 hx)
    · cases h

theorem do_deletes_of_le {l xs : List Ref} (h : (xs : Multiset Ref) ≤ (l : Multiset Ref)) :
    do_deletes l xs = .ok (l.diff xs) := by
  induction xs generalizing l with
  | nil => rfl
  | cons x tl ih =>
    have hx : x ∈ l := by
      have hm : x ∈ ((x :: tl : List Ref) : Multiset Ref) := by
        rw [← Multiset.cons_coe]; exact Multiset.mem_cons_self x _
      exact Multiset.mem_coe.1 (Multiset.mem_of_le h hm)
    rw [do_deletes_cons]
    unfold pyRemove
    rw [if_pos hx]
    have hle : ((tl : List Ref) : Multiset Ref) ≤ ((l.erase x : List Ref) : Multiset Ref) := by
      have h2 := Multiset.erase_le_erase x h
      rw [← Multiset.cons_coe] at h2
      rw [Multiset.erase_cons_head] at h2
      rw [← Multiset.coe_erase]
      exact h2
    show do_deletes (l.erase x) tl = _
    rw [ih hle, List.diff_cons]

theorem diff_append_perm {l xs : List Ref} (h : (xs : Multiset Ref) ≤ (l : Multiset Ref)) :
    (l.diff xs ++ xs).Perm l := by
  rw [← Multiset.coe_eq_coe, ← Multiset.coe_add, ← Multiset.coe_sub,
    tsub_add_cancel_of_le h]

theorem diff_middle {P xs ys : List Ref} (hP : ∀ x ∈ xs, x ∉ P) :
    (P ++ xs ++ ys).diff xs = P ++ ys := by
  induction xs generalizing P with
  | nil => simp
  | cons x tl ih =>
    rw [List.diff_cons]
    have h1 : (P ++ (x :: tl) ++ ys).erase x = P ++ tl ++ ys := by
      rw [List.append_assoc, List.erase_append_right _ (hP x (by simp)),
        List.cons_append, List.erase_cons_head, ← List.append_assoc]
    rw [h1]
    exact ih fun y hy => hP y (by simp [hy])

/-! Characterizations of the Undoer transitions. -/

theorem undo_eq {u : Undoer} {d : DocState} {r : RAction}
    (hcu : u.can_undo = true) (hget : pyGet u._actions u._index = some r) :
    u.undo d = (do_deletes (do_adds d.scheduled r.act.deleted_schedules)
        r.act.added_schedules).map
      (fun sched2 =>
        (⟨pySet u._actions u._index ⟨r.act, (r.undostep.undo d).1⟩,
          u._index - 1, u._save_point⟩,
         { (r.undostep.undo d).2 with scheduled := sched2, cacheCleared := true })) := by
  unfold Undoer.undo
  rw [hcu, hget]
  rfl

theorem redo_eq {u : Undoer} {d : DocState} {r : RAction}
    (hcr : u.can_redo = true) (hget : pyGet u._actions (u._index + 1) = some r) :
    u.redo d = (do_deletes (do_adds d.scheduled r.act.added_schedules)
        r.act.deleted_schedules).map
      (fun sched2 =>
        (⟨pySet u._actions (u._index + 1) ⟨r.act, (r.undostep.redo d).1⟩,
          u._index + 1, u._save_point⟩,
         { (r.undostep.redo d).2 with scheduled := sched2, cacheCleared := true })) := by
  unfold Undoer.redo
  rw [hcr, hget]
  rfl

theorem undo_of_not_can_undo {u : Undoer} (d : DocState) (h : u.can_undo = false) :
    u.undo d = .error .assertionError := by
  unfold Undoer.undo
  rw [h]
  rfl

theorem redo_of_not_can_redo {u : Undoer} (d : DocState) (h : u.can_redo = false) :
    u.redo d = .error .assertionError := by
  unfold Undoer.redo
  rw [h]
  rfl

theorem undo_of_none {u : Undoer} (d : DocState) (hcu : u.can_undo = true)
    (hget : pyGet u._actions u._index = none) : u.undo d = .error .indexError := by
  unfold Undoer.undo
  rw [hcu, hget]
  rfl

theorem redo_of_none {u : Undoer} (d : DocState) (hcr : u.can_redo = true)
    (hget : pyGet u._actions (u._index + 1) = none) : u.redo d = .error .indexError := by
  unfold Undoer.redo
  rw [hcr, hget]
  rfl

/-- Bookkeeping effect of a successful `undo`: the cursor steps back, the
save point and the action identities (and the history length) are kept. -/
theorem undo_bookkeeping {u u1 : Undoer} {d d1 : DocState}
    (h : u.undo d = .ok (u1, d1)) :
    u1._index = u._index - 1 ∧ u1._save_point = u._save_point ∧
      actionIds u1._actions = actionIds u._actions ∧
      u1._actions.length = u._actions.length := by
  cases hcu : u.can_undo with
  | false => rw [undo_of_not_can_undo d hcu] at h; cases h
  | true =>
    cases hget : pyGet u._actions u._index with
    | none => rw [undo_of_none d hcu hget] at h; cases h
    | some r =>
      rw [undo_eq hcu hget] at h
      cases hdd : do_deletes (do_adds d.scheduled r.act.deleted_schedules)
          r.act.added_schedules with
      | error e => rw [hdd] at h; cases h
      | ok m =>
        rw [hdd] at h
        simp only [Except.map, Except.ok.injEq, Prod.mk.injEq] at h
        obtain ⟨hu, hd⟩ := h
        subst hu
        exact ⟨rfl, rfl, actionIds_pySet _ hget, length_pySet _ _ _⟩

/-- Bookkeeping effect of a successful `redo`: the cursor steps forward, the
save point and the action identities (and the history length) are kept. -/
theorem redo_bookkeeping {u u1 : Undoer} {d d1 : DocState}
    (h : u.redo d = .ok (u1, d1)) :
    u1._index = u._index + 1 ∧ u1._save_point = u._save_point ∧
      actionIds u1._actions = actionIds u._actions ∧
      u1._actions.length = u._actions.length := by
  cases hcr : u.can_redo with
  | false => rw [redo_of_not_can_redo d hcr] at h; cases h
  | true =>
    cases hget : pyGet u._actions (u._index + 1) with
    | none => rw [redo_of_none d hcr hget] at h; cases h
    | some r =>
      rw [redo_eq hcr hget] at h
      cases hdd : do_deletes (do_adds d.scheduled r.act.added_schedules)
          r.act.deleted_schedules with
      | error e => rw [hdd] at h; cases h
      | ok m =>
        rw [hdd] at h
        simp only [Except.map, Except.ok.injEq, Prod.mk.injEq] at h
        obtain ⟨hu, hd⟩ := h
        subst hu
        exact ⟨rfl, rfl, actionIds_pySet _ hget, length_pySet _ _ _⟩

theorem record_index (u : Undoer) (d : DocState) (a : Action) :
    (u.record d a)._index = -1 := rfl

theorem record_save_point (u : Undoer) (d : DocState) (a : Action) :
    (u.record d a)._save_point = u._save_point := rfl

theorem record_actions (u : Undoer) (d : DocState) (a : Action) :
    (u.record d a)._actions =
      (if u._index < -1
        then u._actions.take ((u._actions.length : Int) + u._index + 1).toNat
        else u._actions) ++ [⟨a, mkUndoStep a d⟩] := rfl

theorem mem_actionIds_record {u : Undoer} {d : DocState} {a : Action} {x : Ref}
    (h : x ∈ actionIds (u.record d a)._actions) :
    x ∈ actionIds u._actions ∨ x = a.aid := by
  rw [record_actions] at h
  unfold actionIds at h
  rw [List.map_append] at h
  rcases List.mem_append.1 h with h1 | h1
  · left
    split at h1
    · rcases List.mem_map.1 h1 with ⟨r, hr, hrx⟩
      exact hrx ▸ List.mem_map_of_mem _ (List.mem_of_mem_take hr)
    · exact h1
  · right
    simpa using h1

/-! Sequences of public operations, and the `modified` flag. -/

theorem applyOp_save_point {u u1 : Undoer} {op : UOp}
    (h : applyOp u op = .ok u1) : u1._save_point = u._save_point := by
  cases op with
  | recordOp d a => cases h; rfl
  | undoOp d =>
    cases hres : u.undo d with
    | error e => rw [applyOp, hres] at h; cases h
    | ok p =>
      rw [applyOp, hres] at h
      cases h
      exact (undo_bookkeeping hres).2.1
  | redoOp d =>
    cases hres : u.redo d with
    | error e => rw [applyOp, hres] at h; cases h
    | ok p =>
      rw [applyOp, hres] at h
      cases h
      exact (redo_bookkeeping hres).2.1

theorem applyOp_notMem {u u1 : Undoer} {op : UOp} {x : Ref}
    (h : applyOp u op = .ok u1)
    (hfresh : ∀ d a, op = UOp.recordOp d a → a.aid ≠ x)
    (hx : x ∉ actionIds u._actions) : x ∉ actionIds u1._actions := by
  cases op with
  | recordOp d a =>
    cases h
    intro hmem
    rcases mem_actionIds_record hmem with h1 | h1
    · exact hx h1
    · exact hfresh d a rfl h1.symm
  | undoOp d =>
    cases hres : u.undo d with
    | error e => rw [applyOp, hres] at h; cases h
    | ok p =>
      rw [applyOp, hres] at h
      cases h
      rw [(undo_bookkeeping hres).2.2.1]
      exact hx
  | redoOp d =>
    cases hres : u.redo d with
    | error e => rw [applyOp, hres] at h; cases h
    | ok p =>
      rw [applyOp, hres] at h
      cases h
      rw [(redo_bookkeeping hres).2.2.1]
      exact hx

/-- A save point whose action identity never reappears in the history (nor
is ever re-recorded) survives any successful run of operations. -/
theorem runOps_invariant {ops : List UOp} {u u1 : Undoer} {x : Ref}
    (h : runOps u ops = .ok u1)
    (hfresh : ∀ d a, UOp.recordOp d a ∈ ops → a.aid ≠ x)
    (hsp : u._save_point = some x) (hx : x ∉ actionIds u._actions) :
    u1._save_point = some x ∧ x ∉ actionIds u1._actions := by
  induction ops generalizing u with
  | nil => cases h; exact ⟨hsp, hx⟩
  | cons op rest ih =>
    unfold runOps at h
    cases hop : applyOp u op with
    | error e => rw [hop] at h; cases h
    | ok u2 =>
      rw [hop] at h
      refine ih h (fun d a hmem => hfresh d a (List.mem_cons_of_mem _ hmem)) ?_ ?_
      · rw [applyOp_save_point hop, hsp]
      · exact applyOp_notMem hop (fun d a hop2 => hfresh d a (hop2 ▸ List.mem_cons_self _ _)) hx

/-- When the save point is an action identity absent from the history, the
document always reports itself as modified. -/
theorem modified_of_fresh_save_point {u : Undoer} {x : Ref}
    (hsp : u._save_point = some x) (hx : x ∉ actionIds u._actions) :
    u.modified = true := by
  unfold Undoer.modified
  by_cases hcu : u.can_undo = true
  · rw [if_pos hcu]
    cases hget : pyGet u._actions u._index with
    | none => rfl
    | some r =>
      have hmem : r.act.aid ∈ actionIds u._actions :=
        List.mem_map_of_mem _ (pyGet_mem hget)
      have hne : x ≠ r.act.aid := fun he => hx (he ▸ hmem)
      simp [hsp, hne]
  · rw [if_neg hcu]
    simp [hsp]

theorem modified_at_save_point {u : Undoer} {r : RAction}
    (hcu : u.can_undo = true) (hget : pyGet u._actions u._index = some r)
    (hsp : u._save_point = some r.act.aid) : u.modified = false := by
  unfold Undoer.modified
  rw [if_pos hcu, hget]
  simp [hsp]

theorem modified_of_no_save_point {u : Undoer} (hsp : u._save_point = none)
    (hcu : u.can_undo = false) : u.modified = false := by
  unfold Undoer.modified
  rw [if_neg (by simp [hcu])]
  simp [hsp]

theorem can_undo_record (u : Undoer) (d : DocState) (a : Action) :
    (u.record d a).can_undo = true := by
  unfold Undoer.can_undo
  rw [record_index, record_actions]
  simp

theorem pyGet_record (u : Undoer) (d : DocState) (a : Action) :
    pyGet (u.record d a)._actions (u.record d a)._index =
      some ⟨a, mkUndoStep a d⟩ := by
  rw [record_index, record_actions]
  exact pyGet_append_last _ _

theorem modified_after_record {u : Undoer} {d : DocState} {a : Action}
    (hsp : u._save_point ≠ some a.aid) : (u.record d a).modified = true := by
  unfold Undoer.modified
  rw [if_pos (can_undo_record u d a), pyGet_record u d a]
  have : (u.record d a)._save_point = u._save_point := record_save_point u d a
  simp [this, hsp]

theorem modified_after_set_save_point {u : Undoer} (hidx : u._index = -1) :
    u.set_save_point.modified = false := by
  rcases List.eq_nil_or_concat u._actions with hnil | ⟨l, r, hconcat⟩
  · have hsp : u.set_save_point._save_point = none := by
      unfold Undoer.set_save_point
      rw [hnil]
      rfl
    refine modified_of_no_save_point hsp ?_
    unfold Undoer.can_undo Undoer.set_save_point
    rw [hidx, hnil]
    rfl
  · have hcu : u.set_save_point.can_undo = true := by
      unfold Undoer.can_undo Undoer.set_save_point
      rw [hidx, hconcat]
      simp
    have hget : pyGet u.set_save_point._actions u.set_save_point._index = some r := by
      show pyGet u._actions u._index = some r
      rw [hidx, hconcat, List.concat_eq_append]
      exact pyGet_append_last _ _
    refine modified_at_save_point hcu hget ?_
    show u._actions.getLast?.map (fun q => q.act.aid) = some r.act.aid
    rw [hconcat, List.concat_eq_append, List.getLast?_concat]
    rfl


/-! Roundtrip lemmas: undo then redo restores collections, heaps and steps. -/

theorem count_diff (l xs : List Ref) (x : Ref) :
    (l.diff xs).count x = l.count x - xs.count x := by
  have h := Multiset.count_sub x (l : Multiset Ref) (xs : Multiset Ref)
  rw [Multiset.coe_sub] at h
  simpa using h

theorem coll_undo_redo {s : Finset Ref} {added deleted : List Ref}
    (ha : ∀ x ∈ added, x ∈ s) (hd : ∀ x ∈ deleted, x ∉ s) :
    insAll (remAll (insAll (remAll s added) deleted) deleted) added = s := by
  ext x
  simp only [mem_insAll, mem_remAll]
  have ha2 := ha x
  have hd2 := hd x
  tauto

theorem step_undo_redo_step {st : UndoStep} {d : DocState}
    (hca : (st.changed_accounts.map Prod.fst).Nodup)
    (hct : (st.changed_transactions.map Prod.fst).Nodup)
    (hcs : (st.changed_schedules.map Prod.fst).Nodup) :
    ((st.undo d).1.redo (st.undo d).2).1 = st := by
  simp [UndoStep.undo, UndoStep.redo, snapshot_restore hca, snapshot_restore hct,
    snapshot_restore hcs]

theorem step_undo_redo_doc {st : UndoStep} {d : DocState}
    (hca : (st.changed_accounts.map Prod.fst).Nodup)
    (hct : (st.changed_transactions.map Prod.fst).Nodup)
    (hcs : (st.changed_schedules.map Prod.fst).Nodup)
    (haa : ∀ x ∈ st.added_accounts, x ∈ d.accounts)
    (hda : ∀ x ∈ st.deleted_accounts, x ∉ d.accounts)
    (hat : ∀ x ∈ st.added_transactions, x ∈ d.transactions)
    (hdt : ∀ x ∈ st.deleted_transactions, x ∉ d.transactions) :
    ((st.undo d).1.redo (st.undo d).2).2.accounts = d.accounts ∧
    ((st.undo d).1.redo (st.undo d).2).2.transactions = d.transactions ∧
    ((st.undo d).1.redo (st.undo d).2).2.accHeap = d.accHeap ∧
    ((st.undo d).1.redo (st.undo d).2).2.txnHeap = d.txnHeap ∧
    ((st.undo d).1.redo (st.undo d).2).2.schedHeap = d.schedHeap := by
  refine ⟨?_, ?_, ?_, ?_, ?_⟩ <;>
    simp [UndoStep.undo, UndoStep.redo, restore_snapshot hca, restore_snapshot hct,
      restore_snapshot hcs, coll_undo_redo haa hda, coll_undo_redo hat hdt]

theorem pySet_pySet (l : List RAction) (i : Int) (x y : RAction) :
    pySet (pySet l i x) i y = pySet l i y := by
  unfold pySet
  rw [List.length_set]
  exact List.set_set x y l _

/-! Claim C1: undo followed by redo. -/

/-- C1 (counterexample): `undo()` then `redo()` does not reproduce the
scheduled-transactions list order. Concretely: with scheduled list `[0, 1]`
and the recorded action having `added_schedules = [0]`, undo removes
schedule 0 from the front and redo re-appends it at the end, producing
`[1, 0]` instead of the pre-undo `[0, 1]`. All other state is empty and
restored; the claim's "including its order" fails. -/
theorem undo_redo_scheduled_order_counterexample :
    (((Undoer.init.record dPair aSched).undo dPair).bind
        (fun p => p.1.redo p.2)).map (fun p => p.2.scheduled) = .ok [1, 0] ∧
      dPair.scheduled = [0, 1] ∧ ([1, 0] : List Ref) ≠ [0, 1] := by
  refine ⟨by decide, rfl, by decide⟩

/-- C1 (amended): from any state where `can_undo` holds and the cursor
action is internally consistent with the document (nodup changed lists;
added entities present, deleted entities absent; the schedule sets nodup,
disjoint, added ones present and deleted ones absent from the scheduled
list), `undo()` then `redo()` succeed and restore the Undoer exactly
(history, mutated undostep backups, cursor, save point), the account and
transaction collections and all three content heaps exactly, and the
scheduled list up to permutation — exactly when the action's added schedules
form the final suffix of the scheduled list (the layout produced by normal
recording), but only up to permutation in general, as the counterexample
shows. The cache-invalidation flag is set, as `redo` ends with
`clear_cache`. -/
theorem undo_redo_roundtrip (u : Undoer) (d : DocState) (r : RAction)
    (hidx : u._index ≤ -1)
    (hcu : u.can_undo = true)
    (hget : pyGet u._actions u._index = some r)
    (hca : (r.undostep.changed_accounts.map Prod.fst).Nodup)
    (hct : (r.undostep.changed_transactions.map Prod.fst).Nodup)
    (hcs : (r.undostep.changed_schedules.map Prod.fst).Nodup)
    (haa : ∀ x ∈ r.undostep.added_accounts, x ∈ d.accounts)
    (hda : ∀ x ∈ r.undostep.deleted_accounts, x ∉ d.accounts)
    (hat : ∀ x ∈ r.undostep.added_transactions, x ∈ d.transactions)
    (hdt : ∀ x ∈ r.undostep.deleted_transactions, x ∉ d.transactions)
    (hsa_nd : r.act.added_schedules.Nodup)
    (hsd_nd : r.act.deleted_schedules.Nodup)
    (hsa_mem : ∀ x ∈ r.act.added_schedules, x ∈ d.scheduled)
    (hsd_mem : ∀ x ∈ r.act.deleted_schedules, x ∉ d.scheduled)
    (hdisj : ∀ x ∈ r.act.added_schedules, x ∉ r.act.deleted_schedules) :
    ∃ u1 d1 u2 d2,
      u.undo d = .ok (u1, d1) ∧
      u1.redo d1 = .ok (u2, d2) ∧
      u2 = u ∧
      d2.accounts = d.accounts ∧ d2.transactions = d.transactions ∧
      d2.accHeap = d.accHeap ∧ d2.txnHeap = d.txnHeap ∧
      d2.schedHeap = d.schedHeap ∧
      d2.scheduled.Perm d.scheduled ∧ d2.cacheCleared = true ∧
      (∀ P, d.scheduled = P ++ r.act.added_schedules →
        (∀ x ∈ r.act.added_schedules, x ∉ P) → d2.scheduled = d.scheduled) := by
  have hle1 : ((r.act.added_schedules : List Ref) : Multiset Ref) ≤
      ((d.scheduled ++ r.act.deleted_schedules : List Ref) : Multiset Ref) := by
    rw [Multiset.le_iff_count]
    intro x
    simp only [Multiset.coe_count, List.count_append]
    by_cases hx : x ∈ r.act.added_schedules
    · have h1 := List.count_eq_one_of_mem hsa_nd hx
      have h2 : 0 < d.scheduled.count x := List.count_pos_iff.mpr (hsa_mem x hx)
      omega
    · have h1 : r.act.added_schedules.count x = 0 := List.count_eq_zero.mpr hx
      omega
  have hdd1 : do_deletes (do_adds d.scheduled r.act.deleted_schedules)
      r.act.added_schedules =
      .ok ((d.scheduled ++ r.act.deleted_schedules).diff r.act.added_schedules) := by
    rw [do_adds_eq]
    exact do_deletes_of_le hle1
  set sched2 : List Ref :=
    (d.scheduled ++ r.act.deleted_schedules).diff r.act.added_schedules with hsched2def
  set st1 : UndoStep := (r.undostep.undo d).1 with hst1def
  set dmid : DocState := (r.undostep.undo d).2 with hdmiddef
  set d1 : DocState := { dmid with scheduled := sched2, cacheCleared := true } with hd1def
  set u1 : Undoer :=
    (⟨pySet u._actions u._index ⟨r.act, st1⟩, u._index - 1, u._save_point⟩ : Undoer) with hu1def
  have hundo : u.undo d = .ok (u1, d1) := by
    rw [undo_eq hcu hget, hdd1]
    rfl
  have hcountsched2 : ∀ x, sched2.count x =
      (d.scheduled.count x + r.act.deleted_schedules.count x) -
        r.act.added_schedules.count x := by
    intro x
    rw [hsched2def, count_diff, List.count_append]
  have hle2 : ((r.act.deleted_schedules : List Ref) : Multiset Ref) ≤
      ((sched2 ++ r.act.added_schedules : List Ref) : Multiset Ref) := by
    rw [Multiset.le_iff_count]
    intro x
    simp only [Multiset.coe_count, List.count_append]
    by_cases hx : x ∈ r.act.deleted_schedules
    · have h1 := List.count_eq_one_of_mem hsd_nd hx
      have h2 : r.act.added_schedules.count x = 0 := by
        rw [List.count_eq_zero]
        intro hmem
        exact hdisj x hmem hx
      have h3 : d.scheduled.count x = 0 := List.count_eq_zero.mpr (hsd_mem x hx)
      have h4 := hcountsched2 x
      omega
    · have h1 : r.act.deleted_schedules.count x = 0 := List.count_eq_zero.mpr hx
      omega
  set sched4 : List Ref :=
    (sched2 ++ r.act.added_schedules).diff r.act.deleted_schedules with hsched4def
  set st2 : UndoStep := (st1.redo d1).1 with hst2def
  set dmid2 : DocState := (st1.redo d1).2 with hdmid2def
  set d2 : DocState := { dmid2 with scheduled := sched4, cacheCleared := true } with hd2def
  set u2 : Undoer :=
    (⟨pySet u1._actions (u1._index + 1) ⟨r.act, st2⟩,
      u1._index + 1, u._save_point⟩ : Undoer) with hu2def
  have hcr1 : u1.can_redo = true := by
    show decide (u._index - 1 < -1) = true
    simp only [decide_eq_true_eq]
    omega
  have hget1 : pyGet u1._actions (u1._index + 1) = some ⟨r.act, st1⟩ := by
    show pyGet (pySet u._actions u._index ⟨r.act, st1⟩) (u._index - 1 + 1) = some ⟨r.act, st1⟩
    rw [show u._index - 1 + 1 = u._index from by omega]
    exact pyGet_pySet hget
  have hdd2 : do_deletes
      (do_adds d1.scheduled (⟨r.act, st1⟩ : RAction).act.added_schedules)
      (⟨r.act, st1⟩ : RAction).act.deleted_schedules = .ok sched4 := by
    show do_deletes (do_adds sched2 r.act.added_schedules) r.act.deleted_schedules = .ok sched4
    rw [do_adds_eq]
    rw [hsched4def]
    exact do_deletes_of_le hle2
  have hredo : u1.redo d1 = .ok (u2, d2) := by
    rw [redo_eq hcr1 hget1, hdd2]
    rfl
  have hstep : st2 = r.undostep := step_undo_redo_step hca hct hcs
  have hdoc := step_undo_redo_doc hca hct hcs haa hda hat hdt
  have hu2u : u2 = u := by
    show (⟨pySet u1._actions (u1._index + 1) ⟨r.act, st2⟩,
      u1._index + 1, u._save_point⟩ : Undoer) = u
    rw [hstep]
    show (⟨pySet (pySet u._actions u._index ⟨r.act, st1⟩) (u._index - 1 + 1)
      ⟨r.act, r.undostep⟩, u._index - 1 + 1, u._save_point⟩ : Undoer) = u
    rw [show u._index - 1 + 1 = u._index from by omega, pySet_pySet,
      show (⟨r.act, r.undostep⟩ : RAction) = r from rfl, pySet_of_pyGet hget]
  refine ⟨u1, d1, u2, d2, hundo, hredo, hu2u, hdoc.1, hdoc.2.1, hdoc.2.2.1,
    hdoc.2.2.2.1, hdoc.2.2.2.2, ?_, rfl, ?_⟩
  · show sched4.Perm d.scheduled
    rw [hsched4def, hsched2def]
    rw [← Multiset.coe_eq_coe, ← Multiset.coe_sub, ← Multiset.coe_add,
      ← Multiset.coe_sub, ← Multiset.coe_add]
    rw [tsub_add_cancel_of_le (by rw [Multiset.coe_add]; exact hle1)]
    rw [add_tsub_cancel_right]
  · intro P hP hPd
    show sched4 = d.scheduled
    have h2 : sched2 = P ++ r.act.deleted_schedules := by
      rw [hsched2def, hP]
      exact diff_middle hPd
    have hPd2 : ∀ x ∈ r.act.deleted_schedules, x ∉ P := by
      intro x hx hxP
      exact hsd_mem x hx (by rw [hP]; exact List.mem_append_left _ hxP)
    rw [hsched4def, h2, List.append_assoc]
    rw [← List.append_assoc P]
    rw [@diff_middle P r.act.deleted_schedules r.act.added_schedules hPd2, hP]

/-- C1 witness: the roundtrip theorem applied to the concrete one-action
history recorded over `dW`, with every hypothesis evaluated. -/
theorem undo_redo_roundtrip_witness :
    ∃ u1 d1 u2 d2,
      (Undoer.init.record dW aW).undo dW = .ok (u1, d1) ∧
      u1.redo d1 = .ok (u2, d2) ∧
      u2 = Undoer.init.record dW aW ∧
      d2.accounts = dW.accounts ∧ d2.transactions = dW.transactions ∧
      d2.accHeap = dW.accHeap ∧ d2.txnHeap = dW.txnHeap ∧
      d2.schedHeap = dW.schedHeap ∧
      d2.scheduled.Perm dW.scheduled ∧ d2.cacheCleared = true := by
  obtain ⟨u1, d1, u2, d2, h1, h2, h3, h4, h5, h6, h7, h8, h9, h10, h11⟩ :=
    undo_redo_roundtrip (Undoer.init.record dW aW) dW ⟨aW, mkUndoStep aW dW⟩
      (by decide) (by decide) (by decide) (by decide) (by decide) (by decide)
      (by decide) (by decide) (by decide) (by decide) (by decide) (by decide)
      (by decide) (by decide) (by decide)
  exact ⟨u1, d1, u2, d2, h1, h2, h3, h4, h5, h6, h7, h8, h9, h10⟩

/-! Claim C2: record after undo discards the redo history. -/

theorem runOps_notMem {ops : List UOp} {u u1 : Undoer} {x : Ref}
    (h : runOps u ops = .ok u1)
    (hfresh : ∀ d a, UOp.recordOp d a ∈ ops → a.aid ≠ x)
    (hx : x ∉ actionIds u._actions) : x ∉ actionIds u1._actions := by
  induction ops generalizing u with
  | nil => cases h; exact hx
  | cons op rest ih =>
    unfold runOps at h
    cases hop : applyOp u op with
    | error e => rw [hop] at h; cases h
    | ok u2 =>
      rw [hop] at h
      refine ih h (fun d a hmem => hfresh d a (List.mem_cons_of_mem _ hmem)) ?_
      exact applyOp_notMem hop
        (fun d a hop2 => hfresh d a (hop2 ▸ List.mem_cons_self _ _)) hx

theorem get_not_mem_take {l : List Ref} (hnd : l.Nodup) {k : Nat}
    {i : Fin l.length} (hk : k ≤ i.val) : l.get i ∉ l.take k := by
  intro hmem
  obtain ⟨j, hj, hjx⟩ := List.getElem_of_mem hmem
  have hjk : j < k := by
    have := hj
    simp only [List.length_take] at this
    omega
  have hjlen : j < l.length := by
    have := hj
    simp only [List.length_take] at this
    omega
  have hx2 : l[j] = l.get i := by
    rw [← hjx]
    exact (List.getElem_take l).symm
  have : j = i.val := (List.Nodup.getElem_inj_iff hnd).mp (by simpa using hx2)
  omega

/-- C2: when the cursor has been rewound, `record` discards every action
strictly after the cursor, appends the new action and resets the cursor (the
general first conjunct); consequently, after `undo(); undo(); record(b)` from
a tip state with at least two actions, `can_redo` is false, the history
length is the pre-undo length minus 2 plus 1, and the identities of every
action at or past position `len - 2` (the two undone actions) are gone from
the history and stay gone through any further successful record/undo/redo
operations that record only fresh actions — so they are permanently
unreachable via `redo`, which only ever applies actions present in the
history. -/
theorem record_discards_redo_history (u u1 u2 u4 : Undoer) (b : Action)
    (dA dB dC : DocState) (ops : List UOp)
    (hidx : u._index = -1) (hlen : 2 ≤ u._actions.length)
    (hnd : (actionIds u._actions).Nodup)
    (hu1 : (u.undo dA).map Prod.fst = .ok u1)
    (hu2 : (u1.undo dB).map Prod.fst = .ok u2)
    (hb : b.aid ∉ actionIds u._actions)
    (hfresh : ∀ d' a', UOp.recordOp d' a' ∈ ops → a'.aid ∉ actionIds u._actions)
    (hrun : runOps (u2.record dC b) ops = .ok u4) :
    (∀ (v : Undoer) (dv : DocState) (a : Action), v._index < -1 →
      (v.record dv a)._actions =
        v._actions.take ((v._actions.length : Int) + v._index + 1).toNat ++
          [⟨a, mkUndoStep a dv⟩] ∧ (v.record dv a)._index = -1) ∧
    (u2.record dC b).can_redo = false ∧
    (u2.record dC b)._actions.length + 2 = u._actions.length + 1 ∧
    (∀ i : Fin u._actions.length, u._actions.length - 2 ≤ i.val →
      (u._actions.get i).act.aid ∉ actionIds u4._actions) := by
  obtain ⟨p1, hp1, hp1u⟩ : ∃ p, u.undo dA = .ok p ∧ p.1 = u1 := by
    cases hres : u.undo dA with
    | error e => rw [hres] at hu1; cases hu1
    | ok p => rw [hres] at hu1; cases hu1; exact ⟨p, rfl, rfl⟩
  obtain ⟨p2, hp2, hp2u⟩ : ∃ p, u1.undo dB = .ok p ∧ p.1 = u2 := by
    cases hres : u1.undo dB with
    | error e => rw [hres] at hu2; cases hu2
    | ok p => rw [hres] at hu2; cases hu2; exact ⟨p, rfl, rfl⟩
  have hbk1 := undo_bookkeeping hp1
  have hbk2 := undo_bookkeeping hp2
  rw [hp1u] at hbk1
  rw [hp2u] at hbk2
  have hidx2 : u2._index = -3 := by
    rw [hbk2.1, hbk1.1, hidx]
    rfl
  have hids2 : actionIds u2._actions = actionIds u._actions := by
    rw [hbk2.2.2.1, hbk1.2.2.1]
  have hlen2 : u2._actions.length = u._actions.length := by
    rw [hbk2.2.2.2, hbk1.2.2.2]
  have hK : ((u2._actions.length : Int) + u2._index + 1).toNat =
      u._actions.length - 2 := by
    rw [hidx2, hlen2]
    omega
  have hrec_actions : (u2.record dC b)._actions =
      u2._actions.take (u._actions.length - 2) ++ [⟨b, mkUndoStep b dC⟩] := by
    rw [record_actions, if_pos (by rw [hidx2]; omega), hK]
  have hrec_ids : actionIds (u2.record dC b)._actions =
      (actionIds u._actions).take (u._actions.length - 2) ++ [b.aid] := by
    rw [hrec_actions]
    unfold actionIds
    rw [List.map_append, List.map_take]
    rw [show List.map (fun r => r.act.aid) u2._actions = actionIds u2._actions from rfl,
      hids2]
    rfl
  refine ⟨?_, ?_, ?_, ?_⟩
  · intro v dv a hv
    exact ⟨by rw [record_actions, if_pos hv], record_index v dv a⟩
  · unfold Undoer.can_redo
    rw [record_index]
    rfl
  · rw [hrec_actions]
    rw [List.length_append, List.length_take, hlen2]
    simp only [List.length_singleton]
    omega
  · intro i hi
    refine runOps_notMem hrun ?_ ?_
    · intro d' a' hmem heq
      exact hfresh d' a' hmem (heq ▸ List.mem_map_of_mem _ (u._actions.get_mem i.val i.isLt))
    · rw [hrec_ids]
      intro hmem
      rcases List.mem_append.1 hmem with h1 | h1
      · have hndu : (actionIds u._actions).Nodup := hnd
        have hget : (u._actions.get i).act.aid =
            (actionIds u._actions).get ⟨i.val, by simp [actionIds]⟩ := by
          simp [actionIds]
        rw [hget] at h1
        exact get_not_mem_take hndu hi h1
      · have hbe : (u._actions.get i).act.aid = b.aid := by simpa using h1
        exact hb (hbe ▸ List.mem_map_of_mem _ (u._actions.get_mem i.val i.isLt))

/-- C2 witness: the truncation consequences evaluated on the concrete
two-action history, undone twice, with action 2 recorded on top. -/
theorem record_discards_redo_history_witness :
    (uC2low.record dEmpty (Action.new 2 "c")).can_redo = false ∧
    (uC2low.record dEmpty (Action.new 2 "c"))._actions.length + 2 =
      uC2._actions.length + 1 := by
  have h := record_discards_redo_history uC2 uC2mid uC2low
    (uC2low.record dEmpty (Action.new 2 "c")) (Action.new 2 "c")
    dEmpty dEmpty dEmpty []
    (by decide) (by decide) (by decide) (by decide) (by decide) (by decide)
    (fun d' a' hmem => absurd hmem (List.not_mem_nil _)) (by decide)
  exact ⟨h.2.1, h.2.2.1⟩

/-! Claim C3: the modified flag around save points. -/

/-- C3 (counterexample): `modified` is not false after every call to
`set_save_point()`. From a rewound cursor the method stores the tip action
(`_actions[-1]`) while `modified` compares against the cursor action, so
after record(action 0); record(action 1); undo(); set_save_point() the
document still reports itself modified. -/
theorem set_save_point_rewound_counterexample :
    ((((Undoer.init.record dEmpty (Action.new 0 "a")).record dEmpty
        (Action.new 1 "b")).undo dEmpty).map
      (fun p => p.1.set_save_point.modified)) = .ok true := by
  decide

/-- C3 (amended): `modified` is false after construction; false immediately
after `set_save_point()` whenever the cursor is at the tip (`_index = -1`,
no pending undo — not from rewound states, where the counterexample shows it
stays true); true after recording any action whose identity differs from the
current save point; false whenever the cursor action is identity-equal to
the save point (the state reached by undoing back to the save-point action);
and false with no save point once every action has been undone. -/
theorem modified_save_point_behavior (u : Undoer) (d : DocState) (a : Action)
    (r : RAction) :
    Undoer.init.modified = false ∧
    (u._index = -1 → u.set_save_point.modified = false) ∧
    (u._save_point ≠ some a.aid → (u.record d a).modified = true) ∧
    (u.can_undo = true → pyGet u._actions u._index = some r →
      u._save_point = some r.act.aid → u.modified = false) ∧
    (u._save_point = none → u.can_undo = false → u.modified = false) :=
  ⟨by decide, modified_after_set_save_point, modified_after_record,
    fun h1 h2 h3 => modified_at_save_point h1 h2 h3,
    fun h1 h2 => modified_of_no_save_point h1 h2⟩

/-- C3 witness: the amended behavior evaluated on concrete histories — a
fresh save point at the tip of the two-action history, a fresh record on
top of it, and a cursor standing exactly on the save-point action. -/
theorem modified_save_point_behavior_witness :
    Undoer.init.modified = false ∧
    uC2.set_save_point.modified = false ∧
    (uC2.record dEmpty (Action.new 2 "c")).modified = true ∧
    (⟨uC2._actions, -1, some 1⟩ : Undoer).modified = false := by
  have h1 := modified_save_point_behavior uC2 dEmpty (Action.new 2 "c")
    ⟨Action.new 0 "a", mkUndoStep (Action.new 0 "a") dEmpty⟩
  have h2 := modified_save_point_behavior (⟨uC2._actions, -1, some 1⟩ : Undoer)
    dEmpty (Action.new 2 "c") ⟨Action.new 1 "b", mkUndoStep (Action.new 1 "b") dEmpty⟩
  exact ⟨h1.1, h1.2.1 (by decide), h1.2.2.1 (by decide),
    h2.2.2.2.1 (by decide) (by decide) (by decide)⟩

/-! Claim C4: change_transactions and change_entries. -/

theorem sched_fold_changed_transactions (a : Action) (sp : Ref)
    (schedules : List Schedule) :
    (schedules.foldl (fun acc2 sch =>
        if sch.contains_spawn sp then acc2.change_schedule sch.sid else acc2)
      a).changed_transactions = a.changed_transactions := by
  induction schedules generalizing a with
  | nil => rfl
  | cons sch tl ih =>
    rw [List.foldl_cons, ih]
    split <;> rfl

theorem sched_fold_mono {a : Action} {sp x : Ref} {schedules : List Schedule}
    (hx : x ∈ a.changed_schedules) :
    x ∈ (schedules.foldl (fun acc2 sch =>
        if sch.contains_spawn sp then acc2.change_schedule sch.sid else acc2)
      a).changed_schedules := by
  induction schedules generalizing a with
  | nil => exact hx
  | cons sch tl ih =>
    rw [List.foldl_cons]
    refine ih ?_
    split
    · exact mem_setAdd.mpr (Or.inl hx)
    · exact hx

theorem sched_fold_adds {a : Action} {sp : Ref} {schedules : List Schedule}
    {sch : Schedule} (hmem : sch ∈ schedules)
    (hc : sch.contains_spawn sp = true) :
    sch.sid ∈ (schedules.foldl (fun acc2 sch2 =>
        if sch2.contains_spawn sp then acc2.change_schedule sch2.sid else acc2)
      a).changed_schedules := by
  induction schedules generalizing a with
  | nil => cases hmem
  | cons sch1 tl ih =>
    rw [List.foldl_cons]
    rcases List.mem_cons.1 hmem with heq | htl
    · subst heq
      rw [if_pos hc]
      exact sched_fold_mono (mem_setAdd.mpr (Or.inr rfl))
    · exact ih htl

theorem spawn_fold_changed_transactions (a : Action) (sps : List Ref)
    (schedules : List Schedule) :
    (sps.foldl (fun acc sp => schedules.foldl (fun acc2 sch =>
        if sch.contains_spawn sp then acc2.change_schedule sch.sid else acc2) acc)
      a).changed_transactions = a.changed_transactions := by
  induction sps generalizing a with
  | nil => rfl
  | cons sp tl ih =>
    rw [List.foldl_cons, ih, sched_fold_changed_transactions]

theorem spawn_fold_mono {a : Action} {x : Ref} {sps : List Ref}
    {schedules : List Schedule} (hx : x ∈ a.changed_schedules) :
    x ∈ (sps.foldl (fun acc sp => schedules.foldl (fun acc2 sch =>
        if sch.contains_spawn sp then acc2.change_schedule sch.sid else acc2) acc)
      a).changed_schedules := by
  induction sps generalizing a with
  | nil => exact hx
  | cons sp tl ih =>
    rw [List.foldl_cons]
    exact ih (sched_fold_mono hx)

theorem spawn_fold_adds {a : Action} {sps : List Ref} {schedules : List Schedule}
    {sp : Ref} {sch : Schedule} (hsp : sp ∈ sps) (hmem : sch ∈ schedules)
    (hc : sch.contains_spawn sp = true) :
    sch.sid ∈ (sps.foldl (fun acc sp2 => schedules.foldl (fun acc2 sch2 =>
        if sch2.contains_spawn sp2 then acc2.change_schedule sch2.sid else acc2) acc)
      a).changed_schedules := by
  induction sps generalizing a with
  | nil => cases hsp
  | cons sp1 tl ih =>
    rw [List.foldl_cons]
    rcases List.mem_cons.1 hsp with heq | htl
    · subst heq
      exact spawn_fold_mono (sched_fold_adds hmem hc)
    · exact ih htl

theorem normal_fold_changed_transactions (a : Action) (ts : List Ref) :
    (ts.foldl (fun acc t =>
        { acc with changed_transactions := setAdd acc.changed_transactions t })
      a).changed_transactions = setUnion a.changed_transactions ts := by
  induction ts generalizing a with
  | nil => rfl
  | cons t tl ih =>
    rw [List.foldl_cons, ih]
    rfl

theorem normal_fold_changed_schedules (a : Action) (ts : List Ref) :
    (ts.foldl (fun acc t =>
        { acc with changed_transactions := setAdd acc.changed_transactions t })
      a).changed_schedules = a.changed_schedules := by
  induction ts generalizing a with
  | nil => rfl
  | cons t tl ih =>
    rw [List.foldl_cons, ih]

/-- The changed-transactions set produced by `change_transactions` is the
old set united with exactly the non-spawn input transactions. -/
theorem change_transactions_changed_transactions (a : Action)
    (is_spawn : Ref → Bool) (txns : List Ref) (schedules : List Schedule) :
    (a.change_transactions is_spawn txns schedules).changed_transactions =
      setUnion a.changed_transactions (txns.filter (fun t => !is_spawn t)) := by
  unfold Action.change_transactions extract
  rw [spawn_fold_changed_transactions, normal_fold_changed_transactions]

/-- C4: each non-spawn input transaction ends up in `changed_transactions`;
a spawn input transaction is never added there (its membership is exactly
what it was before the call); every schedule among the given ones whose
spawn set contains a spawn input transaction ends up (by identity) in
`changed_schedules`; and `change_entries` is `change_transactions` applied
to the set of owning transactions of the entries. -/
theorem change_transactions_spec (a : Action) (is_spawn : Ref → Bool)
    (txns : List Ref) (schedules : List Schedule) (entries : List Entry) :
    (∀ t ∈ txns, is_spawn t = false →
      t ∈ (a.change_transactions is_spawn txns schedules).changed_transactions) ∧
    (∀ t, is_spawn t = true →
      (t ∈ (a.change_transactions is_spawn txns schedules).changed_transactions ↔
        t ∈ a.changed_transactions)) ∧
    (∀ t ∈ txns, is_spawn t = true → ∀ sch ∈ schedules,
      sch.contains_spawn t = true →
      sch.sid ∈ (a.change_transactions is_spawn txns schedules).changed_schedules) ∧
    (a.change_entries is_spawn entries schedules =
      a.change_transactions is_spawn
        (setUnion [] (entries.map Entry.transaction)) schedules) := by
  refine ⟨?_, ?_, ?_, rfl⟩
  · intro t ht hns
    rw [change_transactions_changed_transactions, mem_setUnion]
    right
    rw [List.mem_filter]
    exact ⟨ht, by rw [hns]; rfl⟩
  · intro t hsp
    rw [change_transactions_changed_transactions, mem_setUnion]
    constructor
    · rintro (h1 | h1)
      · exact h1
      · rw [List.mem_filter] at h1
        rw [hsp] at h1
        cases h1.2
    · exact Or.inl
  · intro t ht hsp sch hmem hc
    unfold Action.change_transactions extract
    refine spawn_fold_adds ?_ hmem hc
    rw [List.mem_filter]
    exact ⟨ht, hsp⟩

/-- C4 witness: a spawn transaction 5 whose owning schedule 1 is passed in
lands schedule 1 in `changed_schedules`; an ordinary transaction 5 lands in
`changed_transactions`; the entry-level call agrees with the
transaction-level call on owners. -/
theorem change_transactions_spec_witness :
    (5 : Ref) ∈ ((Action.new 0 "e").change_transactions (fun _ => false)
      [5] [⟨1, [5]⟩]).changed_transactions ∧
    (1 : Ref) ∈ ((Action.new 0 "e").change_transactions (fun _ => true)
      [5] [⟨1, [5]⟩]).changed_schedules ∧
    (Action.new 0 "e").change_entries (fun _ => true)
        ([⟨7, 5⟩] : List Entry) [⟨1, [5]⟩] =
      (Action.new 0 "e").change_transactions (fun _ => true)
        (setUnion [] (([⟨7, 5⟩] : List Entry).map Entry.transaction)) [⟨1, [5]⟩] := by
  have h1 := change_transactions_spec (Action.new 0 "e") (fun _ => false)
    [5] [⟨1, [5]⟩] ([] : List Entry)
  have h2 := change_transactions_spec (Action.new 0 "e") (fun _ => true)
    [5] [⟨1, [5]⟩] ([⟨7, 5⟩] : List Entry)
  exact ⟨h1.1 5 (by decide) (by decide),
    h2.2.2.1 5 (by decide) (by decide) ⟨1, [5]⟩ (by decide) (by decide),
    h2.2.2.2⟩

/-! Claim C5: record-only sequences. -/

theorem recordAll_index {u : Undoer} (hu : u._index = -1)
    (l : List (DocState × Action)) : (recordAll u l)._index = -1 := by
  induction l generalizing u with
  | nil => exact hu
  | cons p tl ih =>
    show (recordAll (u.record p.1 p.2) tl)._index = -1
    exact ih (record_index _ _ _)

theorem can_redo_of_index_neg_one {u : Undoer} (hu : u._index = -1) :
    u.can_redo = false := by
  unfold Undoer.can_redo
  rw [hu]
  rfl

theorem undo_description_record (u : Undoer) (d : DocState) (a : Action) :
    (u.record d a).undo_description = some a.description := by
  unfold Undoer.undo_description
  rw [if_pos (can_undo_record u d a), pyGet_record u d a]
  rfl

/-- C5: along any sequence of `record` calls from the initial state with no
intervening undo, `can_redo` is false at every point, and right after each
record the `undo_description` is the description of the most recently
recorded action. -/
theorem record_only_sequences (l : List (DocState × Action)) :
    (∀ n : Nat, (recordAll Undoer.init (l.take n)).can_redo = false) ∧
    (∀ i : Fin l.length,
      (recordAll Undoer.init (l.take (i.val + 1))).undo_description =
        some (l.get i).2.description) := by
  constructor
  · intro n
    exact can_redo_of_index_neg_one (recordAll_index rfl _)
  · intro i
    have htake : l.take (i.val + 1) = l.take i.val ++ [l.get i] := by
      rw [← List.take_concat_get l i.val i.isLt, List.concat_eq_append]
      rfl
    rw [htake]
    unfold recordAll
    rw [List.foldl_append]
    exact undo_description_record _ _ _

/-- C5 witness: one record of action "first" from the initial state. -/
theorem record_only_sequences_witness :
    (recordAll Undoer.init ([(dEmpty, Action.new 0 "first")].take 1)).can_redo
      = false ∧
    (recordAll Undoer.init ([(dEmpty, Action.new 0 "first")].take 1)).undo_description
      = some "first" := by
  have h := record_only_sequences [(dEmpty, Action.new 0 "first")]
  exact ⟨h.1 1, h.2 ⟨0, by decide⟩⟩

/-! Claim C6: schedule reversal and cache invalidation. -/

theorem undo_scheduled {u u1 : Undoer} {d d1 : DocState} {r : RAction}
    (hget : pyGet u._actions u._index = some r)
    (h : u.undo d = .ok (u1, d1)) :
    d1.scheduled =
      (d.scheduled ++ r.act.deleted_schedules).diff r.act.added_schedules ∧
    ((r.act.added_schedules : List Ref) : Multiset Ref) ≤
      ((d.scheduled ++ r.act.deleted_schedules : List Ref) : Multiset Ref) ∧
    d1.cacheCleared = true := by
  cases hcu : u.can_undo with
  | false => rw [undo_of_not_can_undo d hcu] at h; cases h
  | true =>
    rw [undo_eq hcu hget] at h
    cases hdd : do_deletes (do_adds d.scheduled r.act.deleted_schedules)
        r.act.added_schedules with
    | error e => rw [hdd] at h; cases h
    | ok m =>
      rw [hdd] at h
      simp only [Except.map, Except.ok.injEq, Prod.mk.injEq] at h
      obtain ⟨hu, hd⟩ := h
      rw [do_adds_eq] at hdd
      have hok := do_deletes_ok hdd
      subst hd
      exact ⟨hok.1, hok.2, rfl⟩

theorem redo_scheduled {u u1 : Undoer} {d d1 : DocState} {r : RAction}
    (hget : pyGet u._actions (u._index + 1) = some r)
    (h : u.redo d = .ok (u1, d1)) :
    d1.scheduled =
      (d.scheduled ++ r.act.added_schedules).diff r.act.deleted_schedules ∧
    ((r.act.deleted_schedules : List Ref) : Multiset Ref) ≤
      ((d.scheduled ++ r.act.added_schedules : List Ref) : Multiset Ref) ∧
    d1.cacheCleared = true := by
  cases hcr : u.can_redo with
  | false => rw [redo_of_not_can_redo d hcr] at h; cases h
  | true =>
    rw [redo_eq hcr hget] at h
    cases hdd : do_deletes (do_adds d.scheduled r.act.added_schedules)
        r.act.deleted_schedules with
    | error e => rw [hdd] at h; cases h
    | ok m =>
      rw [hdd] at h
      simp only [Except.map, Except.ok.injEq, Prod.mk.injEq] at h
      obtain ⟨hu, hd⟩ := h
      rw [do_adds_eq] at hdd
      have hok := do_deletes_ok hdd
      subst hd
      exact ⟨hok.1, hok.2, rfl⟩

theorem diff_append_counts {L xs ys : List Ref}
    (hle : ((ys : List Ref) : Multiset Ref) ≤ ((L ++ xs : List Ref) : Multiset Ref))
    (hnd_x : xs.Nodup) (hnd_y : ys.Nodup)
    (hdisj : ∀ x ∈ ys, x ∉ xs) :
    (∀ s ∈ xs, ((L ++ xs).diff ys).count s = L.count s + 1) ∧
    (∀ s ∈ ys, ((L ++ xs).diff ys).count s + 1 = L.count s) := by
  constructor
  · intro s hs
    rw [count_diff, List.count_append]
    have h1 : ys.count s = 0 := List.count_eq_zero.mpr (fun hmem => hdisj s hmem hs)
    have h2 := List.count_eq_one_of_mem hnd_x hs
    omega
  · intro s hs
    rw [count_diff, List.count_append]
    have h1 := List.count_eq_one_of_mem hnd_y hs
    have h2 : xs.count s = 0 := List.count_eq_zero.mpr (hdisj s hs)
    have h3 : ys.count s ≤ L.count s + xs.count s := by
      have h4 := Multiset.le_iff_count.1 hle s
      simpa [List.count_append] using h4
    omega

/-- C6: a successful `undo` re-adds to the live scheduled list each schedule
in the action's `deleted_schedules` (its multiplicity goes up by one) and
removes each schedule in its `added_schedules` (multiplicity down by one),
and leaves the transactions cache invalidated; a successful `redo` does the
mirror (re-adds `added_schedules`, removes `deleted_schedules`) and likewise
invalidates the cache. -/
theorem undo_redo_schedule_reversal (u u1 : Undoer) (d d1 : DocState)
    (r : RAction)
    (hget : pyGet u._actions u._index = some r)
    (hund : u.undo d = .ok (u1, d1))
    (hnd_d : r.act.deleted_schedules.Nodup)
    (hnd_a : r.act.added_schedules.Nodup)
    (hdisj : ∀ x ∈ r.act.added_schedules, x ∉ r.act.deleted_schedules) :
    ((∀ s ∈ r.act.deleted_schedules,
        d1.scheduled.count s = d.scheduled.count s + 1) ∧
     (∀ s ∈ r.act.added_schedules,
        d1.scheduled.count s + 1 = d.scheduled.count s) ∧
     d1.cacheCleared = true) ∧
    (∀ (v v1 : Undoer) (e e1 : DocState) (q : RAction),
      pyGet v._actions (v._index + 1) = some q →
      v.redo e = .ok (v1, e1) →
      q.act.added_schedules.Nodup → q.act.deleted_schedules.Nodup →
      (∀ x ∈ q.act.deleted_schedules, x ∉ q.act.added_schedules) →
      ((∀ s ∈ q.act.added_schedules,
          e1.scheduled.count s = e.scheduled.count s + 1) ∧
       (∀ s ∈ q.act.deleted_schedules,
          e1.scheduled.count s + 1 = e.scheduled.count s) ∧
       e1.cacheCleared = true)) := by
  constructor
  · obtain ⟨hsched, hle, hcache⟩ := undo_scheduled hget hund
    have hc := diff_append_counts hle hnd_d hnd_a hdisj
    rw [hsched]
    exact ⟨hc.1, hc.2, hcache⟩
  · intro v v1 e e1 q hget2 hred hnd_a2 hnd_d2 hdisj2
    obtain ⟨hsched, hle, hcache⟩ := redo_scheduled hget2 hred
    have hc := diff_append_counts hle hnd_a2 hnd_d2 hdisj2
    rw [hsched]
    exact ⟨hc.1, hc.2, hcache⟩

/-- C6 witness: the reversal counts evaluated on the concrete scenario `dW`
with the full action `aW` (undo direction), and on a rewound one-action
history for the redo direction. -/
theorem undo_redo_schedule_reversal_witness :
    ∃ u1 d1, (Undoer.init.record dW aW).undo dW = .ok (u1, d1) ∧
      d1.scheduled.count 9 = dW.scheduled.count 9 + 1 ∧
      d1.scheduled.count 7 + 1 = dW.scheduled.count 7 ∧
      d1.cacheCleared = true := by
  cases hres : (Undoer.init.record dW aW).undo dW with
  | error e =>
    have hno : errorOf ((Undoer.init.record dW aW).undo dW) = none := by decide
    rw [hres] at hno
    cases hno
  | ok p =>
    have h := undo_redo_schedule_reversal (Undoer.init.record dW aW) p.1 dW p.2
      ⟨aW, mkUndoStep aW dW⟩ (by decide) hres (by decide) (by decide) (by decide)
    exact ⟨p.1, p.2, rfl, h.1.1 9 (by decide), h.1.2.1 7 (by decide), h.1.2.2⟩

/-! Claim C7: what change_accounts actually stores. -/

/-- C7 (counterexample): `change_accounts` adds the bare account reference 7
to `changed_accounts` — the set holds account objects, not (account, backup)
pairs, and the call never reads the account's content, so no backup is taken
at registration time. The spec-modelled registration-time-backup variant, by
contrast, stores the pair of reference and value-at-registration, and so
differs between two heaps giving account 7 different contents. -/
theorem change_accounts_no_backup_counterexample :
    ((Action.new 0 "x").change_accounts [7]).changed_accounts = [7] ∧
    change_accounts_with_backup [] (fun _ => 42) [7] = [(7, 42)] ∧
    change_accounts_with_backup [] (fun _ => 43) [7] = [(7, 43)] :=
  ⟨by decide, by decide, by decide⟩

/-- C7 (amended): `change_accounts` unions the given accounts themselves
into `changed_accounts` (membership afterwards is membership before or in
the input) and is idempotent; `change_schedule` adds the schedule itself
under the same idempotency; no backup is taken at registration —
pre-change snapshots are captured only when `record` builds the `UndoStep`,
pairing each registered account with its content at record time. -/
theorem change_accounts_membership (a : Action) (accounts : List Ref)
    (x s : Ref) (d : DocState) :
    (x ∈ (a.change_accounts accounts).changed_accounts ↔
      x ∈ a.changed_accounts ∨ x ∈ accounts) ∧
    ((a.change_accounts accounts).change_accounts accounts =
      a.change_accounts accounts) ∧
    (x ∈ (a.change_schedule s).changed_schedules ↔
      x ∈ a.changed_schedules ∨ x = s) ∧
    ((a.change_schedule s).change_schedule s = a.change_schedule s) ∧
    (mkUndoStep a d).changed_accounts =
      a.changed_accounts.map (fun r => (r, d.accHeap r)) := by
  refine ⟨mem_setUnion, ?_, mem_setAdd, ?_, rfl⟩
  · have h : setUnion (setUnion a.changed_accounts accounts) accounts =
        setUnion a.changed_accounts accounts :=
      setUnion_of_subset (fun y hy => mem_setUnion.mpr (Or.inr hy))
    simp only [Action.change_accounts]
    rw [h]
  · have h : setAdd (setAdd a.changed_schedules s) s =
        setAdd a.changed_schedules s :=
      setAdd_of_mem (mem_setAdd.mpr (Or.inr rfl))
    simp only [Action.change_schedule]
    rw [h]

/-! Claim C8: assertion semantics of undo and redo. -/

theorem do_deletes_error {l xs : List Ref} {e : PyErr}
    (h : do_deletes l xs = .error e) : e = .valueError := by
  induction xs generalizing l with
  | nil => cases h
  | cons x tl ih =>
    rw [do_deletes_cons] at h
    unfold pyRemove at h
    split at h
    · exact ih h
    · cases h
      rfl

/-- C8 (counterexample): the precondition is not enough for the operation to
complete. With an empty history and a rewound cursor (the state `clear()`
leaves behind after an undo), `can_redo` is true, the assertion passes, yet
`redo` raises `IndexError`. -/
theorem precondition_completion_counterexample :
    (⟨[], -2, none⟩ : Undoer).can_redo = true ∧
    errorOf ((⟨[], -2, none⟩ : Undoer).redo dEmpty) = some .indexError :=
  ⟨by decide, by decide⟩

/-- C8 (amended): `undo` (resp. `redo`) called with its precondition false
fails with exactly `AssertionError`; under the precondition the assertion
never fires — any failure is a different error — and the operation completes
whenever additionally the cursor invariant `_index ≤ -1` holds (for undo)
and the schedules the operation must remove are present (as a multiset) in
the scheduled list after the re-adds. -/
theorem assertion_semantics (u : Undoer) (d : DocState) :
    (u.can_undo = false → u.undo d = .error .assertionError) ∧
    (u.can_redo = false → u.redo d = .error .assertionError) ∧
    (u.can_undo = true → ∀ e, u.undo d = .error e → e ≠ .assertionError) ∧
    (u.can_redo = true → ∀ e, u.redo d = .error e → e ≠ .assertionError) ∧
    (u.can_undo = true → u._index ≤ -1 →
      ∀ r, pyGet u._actions u._index = some r →
        ((r.act.added_schedules : List Ref) : Multiset Ref) ≤
          ((d.scheduled ++ r.act.deleted_schedules : List Ref) : Multiset Ref) →
        ∃ p, u.undo d = .ok p) ∧
    (u.can_redo = true →
      ∀ r, pyGet u._actions (u._index + 1) = some r →
        ((r.act.deleted_schedules : List Ref) : Multiset Ref) ≤
          ((d.scheduled ++ r.act.added_schedules : List Ref) : Multiset Ref) →
        ∃ p, u.redo d = .ok p) := by
  refine ⟨fun h => undo_of_not_can_undo d h, fun h => redo_of_not_can_redo d h,
    ?_, ?_, ?_, ?_⟩
  · intro hcu e herr
    cases hget : pyGet u._actions u._index with
    | none =>
      rw [undo_of_none d hcu hget] at herr
      cases herr
      intro hc
      cases hc
    | some r =>
      rw [undo_eq hcu hget] at herr
      cases hdd : do_deletes (do_adds d.scheduled r.act.deleted_schedules)
          r.act.added_schedules with
      | error e2 =>
        rw [hdd] at herr
        cases herr
        rw [do_deletes_error hdd]
        intro hc
        cases hc
      | ok m => rw [hdd] at herr; cases herr
  · intro hcr e herr
    cases hget : pyGet u._actions (u._index + 1) with
    | none =>
      rw [redo_of_none d hcr hget] at herr
      cases herr
      intro hc
      cases hc
    | some r =>
      rw [redo_eq hcr hget] at herr
      cases hdd : do_deletes (do_adds d.scheduled r.act.added_schedules)
          r.act.deleted_schedules with
      | error e2 =>
        rw [hdd] at herr
        cases herr
        rw [do_deletes_error hdd]
        intro hc
        cases hc
      | ok m => rw [hdd] at herr; cases herr
  · intro hcu _hidx r hget hle
    rw [undo_eq hcu hget]
    rw [do_adds_eq, do_deletes_of_le hle]
    exact ⟨_, rfl⟩
  · intro hcr r hget hle
    rw [redo_eq hcr hget]
    rw [do_adds_eq, do_deletes_of_le hle]
    exact ⟨_, rfl⟩

/-- C8 witness: assertion failures on an empty tip-state Undoer, and a
completing undo on the concrete two-action history. -/
theorem assertion_semantics_witness :
    ((⟨[], -1, none⟩ : Undoer).undo dEmpty = .error .assertionError) ∧
    ((⟨[], -1, none⟩ : Undoer).redo dEmpty = .error .assertionError) ∧
    (∃ p, uC2.undo dEmpty = .ok p) := by
  have h1 := assertion_semantics (⟨[], -1, none⟩ : Undoer) dEmpty
  have h2 := assertion_semantics uC2 dEmpty
  refine ⟨h1.1 (by decide), h1.2.1 (by decide),
    h2.2.2.2.2.1 (by decide) (by decide)
      ⟨Action.new 1 "b", mkUndoStep (Action.new 1 "b") dEmpty⟩ (by decide) ?_⟩
  rw [show ((Action.new 1 "b").added_schedules : List Ref) = [] from rfl]
  rw [Multiset.coe_nil]
  exact Multiset.zero_le _

/-! Claim C9: clear and the save point. -/

/-- C9: `clear()` empties the history and leaves the save point and the
cursor untouched; consequently, after a save point taken on a non-empty
history (cursor anywhere at or before the tip) followed by `clear()`, the
document reports itself modified, and stays modified through every further
successful record/undo/redo run whose recorded actions are fresh objects —
the save-point action can never again be at the cursor. -/
theorem clear_keeps_save_point (u u4 : Undoer) (ops : List UOp)
    (hne : u._actions ≠ [])
    (hfresh : ∀ d' a', UOp.recordOp d' a' ∈ ops →
      a'.aid ∉ actionIds u._actions)
    (hrun : runOps (u.set_save_point.clear) ops = .ok u4) :
    ((u.clear)._actions = [] ∧ (u.clear)._save_point = u._save_point ∧
      (u.clear)._index = u._index) ∧
    (u.set_save_point.clear).modified = true ∧
    u4.modified = true := by
  rcases List.eq_nil_or_concat u._actions with hnil | ⟨l, r, hconcat⟩
  · exact absurd hnil hne
  · have hsp : (u.set_save_point.clear)._save_point = some r.act.aid := by
      show u._actions.getLast?.map (fun q => q.act.aid) = some r.act.aid
      rw [hconcat, List.concat_eq_append, List.getLast?_concat]
      rfl
    have hx : r.act.aid ∈ actionIds u._actions := by
      rw [hconcat, List.concat_eq_append]
      unfold actionIds
      rw [List.map_append]
      exact List.mem_append_right _ (by simp)
    have hempty : r.act.aid ∉ actionIds (u.set_save_point.clear)._actions := by
      show r.act.aid ∉ actionIds []
      simp [actionIds]
    have hmod1 : (u.set_save_point.clear).modified = true :=
      modified_of_fresh_save_point hsp hempty
    have hinv := runOps_invariant hrun
      (fun d' a' hmem heq => hfresh d' a' hmem (heq ▸ hx)) hsp hempty
    exact ⟨⟨rfl, rfl, rfl⟩, hmod1,
      modified_of_fresh_save_point hinv.1 hinv.2⟩

/-- C9 witness: save point on the two-action history, then clear. -/
theorem clear_keeps_save_point_witness :
    ((uC2.clear)._actions = [] ∧ (uC2.clear)._save_point = uC2._save_point ∧
      (uC2.clear)._index = uC2._index) ∧
    (uC2.set_save_point.clear).modified = true := by
  have h := clear_keeps_save_point uC2 (uC2.set_save_point.clear) []
    (by decide) (fun d' a' hm => absurd hm (List.not_mem_nil _)) (by decide)
  exact ⟨h.1, h.2.1⟩

/-! Claim C10: clear leaves the cursor; redo then raises IndexError. -/

/-- C10: `clear()` leaves `_index` unchanged; from any state with at least
one action undone and not redone (`_index < -1`), the cleared Undoer reports
`can_redo` true and `can_undo` false even though the history is empty, and a
subsequent `redo` passes its assertion but indexes the empty action list out
of range, raising `IndexError` instead of performing a redo. -/
theorem clear_leaves_cursor (u : Undoer) (d : DocState) (h : u._index < -1) :
    (u.clear)._index = u._index ∧
    (u.clear).can_redo = true ∧
    (u.clear).can_undo = false ∧
    (u.clear).redo d = .error .indexError := by
  have hcr : (u.clear).can_redo = true := by
    unfold Undoer.can_redo Undoer.clear
    simp only [decide_eq_true_eq]
    exact h
  refine ⟨rfl, hcr, ?_, ?_⟩
  · unfold Undoer.can_undo Undoer.clear
    simp only [decide_eq_false_iff_not]
    simp only [List.length_nil]
    omega
  · refine redo_of_none d hcr ?_
    show pyGet ([] : List RAction) (u._index + 1) = none
    unfold pyGet pyIdx
    rw [if_neg]
    intro hc
    rcases hc with ⟨hc1, hc2⟩
    split at hc1 <;> simp only [List.length_nil] at hc1 hc2 <;> omega

/-- C10 witness: the two-action history rewound once, then cleared. -/
theorem clear_leaves_cursor_witness :
    (uC2mid.clear)._index = uC2mid._index ∧
    (uC2mid.clear).can_redo = true ∧
    (uC2mid.clear).can_undo = false ∧
    (uC2mid.clear).redo dEmpty = .error .indexError :=
  clear_leaves_cursor uC2mid dEmpty (by decide)

end MGUndo
